import Mathlib

/- Verification of the PageRank estimators of pagerank.py: the transition
   model, the sampling estimator and the iterative estimator, embedded over
   exact rational arithmetic.  Python dicts with a fixed key set are
   modelled as an ordered key list together with a value function, and a
   returned dict is materialised as an association list over that key
   list.  Python floats are replaced by rationals, so every numeric
   statement below is exact. -/

namespace PageRankPy

/-- Page identifiers are opaque hashable tokens; we use natural numbers. -/
abbrev Page := Nat

/-- A corpus is a Python dict from a page to the list of pages it links
    to, kept in insertion order.  Dict facts that the list encoding does
    not enforce (distinct keys, duplicate free link sets, links resolving
    inside the corpus) are stated as separate predicates below. -/
abbrev Corpus := List (Page × List Page)

/-- The key list of the corpus dict, in iteration order. -/
def keys (c : Corpus) : List Page := c.map Prod.fst

/-- Dict access corpus[page]; yields the empty list when the key is
    absent (every claim below assumes page is a key, as the source does). -/
def linksOf (c : Corpus) (p : Page) : List Page :=
  ((c.find? fun kv => kv.1 == p).map Prod.snd).getD []

/-- Materialise a dict with key list ks and value function f. -/
def mkDict (ks : List Page) (f : Page → ℚ) : List (Page × ℚ) :=
  ks.map fun p => (p, f p)

/-- The key list of a returned dict. -/
def dictKeys (l : List (Page × ℚ)) : List Page := l.map Prod.fst

/-- The sum of the values of a returned dict. -/
def dictSum (l : List (Page × ℚ)) : ℚ := (l.map Prod.snd).sum

/-- Value of a returned dict at a key (0 when the key is absent). -/
def lookupD (l : List (Page × ℚ)) (q : Page) : ℚ :=
  ((l.find? fun kv => kv.1 == q).map Prod.snd).getD 0

/-- Sum of a value function over the corpus keys. -/
def sumKeys (c : Corpus) (f : Page → ℚ) : ℚ := ((keys c).map f).sum

/-- The corpus is a faithful image of the Python data model: dict keys
    are distinct, every link set is duplicate free (it is a Python set),
    and every link resolves to a key of the corpus (no dangling links,
    as the crawler guarantees). -/
def WF (c : Corpus) : Prop :=
  (keys c).Nodup ∧ ∀ kv ∈ c, kv.2.Nodup ∧ ∀ l ∈ kv.2, l ∈ keys c

/-- No page links to itself (the crawler removes self links). -/
def NoSelf (c : Corpus) : Prop := ∀ kv ∈ c, kv.1 ∉ kv.2

/-- Runtime failures the estimators can raise.  invalidInput is the typed
    error the specification postulates; having it as a constructor lets
    us state whether the code ever produces it. -/
inductive PyErr
  | indexError
  | zeroDivisionError
  | invalidInput
deriving DecidableEq

/-- transition_model, pagerank.py lines 51-80.  When the current page has
    outgoing links, the first source loop gives every corpus page the
    base probability (1 - d) / num_pages and the second loop adds
    d / num_links to the entry of each element of corpus[page]; on the
    dict that accumulation is the occurrence count of the key in the
    link list.  Without outgoing links every page gets 1 / num_pages. -/
def transition_model (c : Corpus) (page : Page) (d : ℚ) : List (Page × ℚ) :=
  let num_pages : ℚ := (c.length : ℚ)
  let ls := linksOf c page
  if 0 < ls.length then
    mkDict (keys c) fun p =>
      (1 - d) / num_pages + (ls.count p : ℚ) * (d / (ls.length : ℚ))
  else
    mkDict (keys c) fun _ => 1 / num_pages

/-- Injectable randomness, as the specification directs: the oracle
    yields one natural number per draw and a draw from a list picks the
    indexed element.  Both random.choice and random.choices return an
    element of the list they are given; the weights passed to
    random.choices only shape the distribution, which the oracle
    abstracts away. -/
def pickIndex (l : List Page) (r : Nat) : Page := l.getD (r % l.length) 0

/-- The sampling walk of sample_pagerank, lines 98-103: steps many times,
    tally the current page, build the transition model for it, and draw
    the next page from list(model), the key list of the model dict.
    The argument i is the index of the next oracle draw. -/
def sampleLoop (c : Corpus) (d : ℚ) (rand : Nat → Nat) :
    Nat → Nat → Page → (Page → Nat) → Page → Nat
  | 0, _, _, cnt => cnt
  | steps+1, i, cur, cnt =>
      let cnt1 : Page → Nat := fun p => if p = cur then cnt p + 1 else cnt p
      let model := transition_model c cur d
      let next := pickIndex (dictKeys model) (rand i)
      sampleLoop c d rand steps (i+1) next cnt1

/-- sample_pagerank, lines 83-109.  On an empty corpus Python raises
    IndexError inside random.choice before the walk; when n = 0 the
    final normalisation loop raises ZeroDivisionError on the first key
    (the corpus is non empty there).  The walk itself is pure, so both
    failures are placed up front.  n is a Python int, hence an integer;
    range(1, n) performs max(n - 1, 0) iterations, and afterwards every
    counter is divided by n. -/
def sample_pagerank (c : Corpus) (d : ℚ) (n : ℤ) (rand : Nat → Nat) :
    Except PyErr (List (Page × ℚ)) :=
  if c.isEmpty then .error .indexError
  else if n = 0 then .error .zeroDivisionError
  else
    let first := pickIndex (keys c) (rand 0)
    let cnt := sampleLoop c d rand (n - 1).toNat 1 first fun _ => 0
    .ok (mkDict (keys c) fun p => (cnt p : ℚ) / (n : ℚ))

/-- The inner accumulation of iterate_pagerank, lines 129-137: to update
    the page current, walk the whole corpus; a page q contributes
    rank q / len(corpus[q]) when current is a link of q other than q
    itself, and additionally rank q / N when q has no outgoing links. -/
def sweepSum (c : Corpus) (pr : Page → ℚ) (current : Page) : ℚ :=
  (c.map fun kv =>
    (if current ≠ kv.1 ∧ current ∈ kv.2 then pr kv.1 / (kv.2.length : ℚ) else 0) +
    (if kv.2 = [] then pr kv.1 / (c.length : ℚ) else 0)).sum

/-- One full sweep, line 138.  The sweep reads only the ranks of the
    previous sweep (the source fills calculated_pr from the untouched
    page_rank and adopts it afterwards), which is the Jacobi update. -/
def sweep (c : Corpus) (d : ℚ) (pr : Page → ℚ) : Page → ℚ :=
  fun current => (1 - d) / (c.length : ℚ) + d * sweepSum c pr current

/-- Initial ranks, line 125: 1 / N for every page.  The dict
    comprehension evaluates 1 / N once per page, so on an empty corpus
    no division is ever executed; the function model is harmless there
    because no key is ever read. -/
def initRank (c : Corpus) : Page → ℚ := fun _ => 1 / (c.length : ℚ)

/-- The convergence threshold of line 144. -/
def tol : ℚ := 1 / 1000

/-- The stopping test of one pass of the while loop, lines 141-146:
    every page moved by at most tol between the previous ranks and the
    freshly computed sweep. -/
def stepOK (c : Corpus) (d : ℚ) (pr : Page → ℚ) : Prop :=
  ∀ p ∈ keys c, |pr p - sweep c d pr p| ≤ tol

instance stepOK.decidable (c : Corpus) (d : ℚ) (pr : Page → ℚ) :
    Decidable (stepOK c d pr) :=
  List.decidableBAll _ (keys c)

/-- The while loop of lines 127-147, fuel indexed: each pass computes
    the sweep, adopts it, and stops when no rank moved by more than tol;
    none means the given fuel was exhausted before convergence. -/
def iterLoop (c : Corpus) (d : ℚ) : Nat → (Page → ℚ) → Option (Page → ℚ)
  | 0, _ => none
  | fuel+1, pr =>
      if stepOK c d pr then some (sweep c d pr)
      else iterLoop c d fuel (sweep c d pr)

/-- iterate_pagerank, lines 111-149.  No division of the source can
    fail: the per-link division is guarded by membership in a non empty
    link list, the dangling division by N and the initial 1 / N only run
    when at least one page exists.  In particular on an empty corpus the
    loop body iterates over an empty dict and the function returns the
    empty dict at once. -/
def iterate_pagerank (c : Corpus) (d : ℚ) (fuel : Nat) :
    Option (List (Page × ℚ)) :=
  (iterLoop c d fuel (initRank c)).map fun f => mkDict (keys c) f

/-- A two page cycle, the symmetric example of the specification. -/
def cTwo : Corpus := [(0, [1]), (1, [0])]

/-- Three pages: 0 and 1 link to each other, 2 links to 0.  With
    damping factor 1 the iteration oscillates forever on this corpus. -/
def cOsc : Corpus := [(0, [1]), (1, [0]), (2, [0])]

/-- A corpus violating the no-self-link invariant: page 0 links to
    itself and to 1, page 1 links to 0. -/
def cSelf : Corpus := [(0, [0, 1]), (1, [0])]

/- ### List and dict helper lemmas -/

lemma sum_map_add {α : Type} (l : List α) (f g : α → ℚ) :
    (l.map fun x => f x + g x).sum = (l.map f).sum + (l.map g).sum := by
  induction l with
  | nil => simp
  | cons a t ih => simp only [List.map_cons, List.sum_cons, ih]; ring

lemma sum_map_mul_left {α : Type} (l : List α) (a : ℚ) (f : α → ℚ) :
    (l.map fun x => a * f x).sum = a * (l.map f).sum := by
  induction l with
  | nil => simp
  | cons b t ih => simp only [List.map_cons, List.sum_cons, ih]; ring

lemma sum_map_div {α : Type} (l : List α) (f : α → ℚ) (a : ℚ) :
    (l.map fun x => f x / a).sum = (l.map f).sum / a := by
  induction l with
  | nil => simp
  | cons b t ih => simp only [List.map_cons, List.sum_cons, ih]; ring

lemma sum_map_const {α : Type} (l : List α) (a : ℚ) :
    (l.map fun _ => a).sum = (l.length : ℚ) * a := by
  induction l with
  | nil => simp
  | cons b t ih => simp only [List.map_cons, List.sum_cons, List.length_cons, ih]
                   push_cast; ring

lemma abs_sum_le {α : Type} (l : List α) (f : α → ℚ) :
    |(l.map f).sum| ≤ (l.map fun x => |f x|).sum := by
  induction l with
  | nil => simp
  | cons a t ih =>
      simp only [List.map_cons, List.sum_cons]
      exact (abs_add _ _).trans (by gcongr)

lemma sum_sum_comm {α β : Type} (l1 : List α) (l2 : List β) (f : α → β → ℚ) :
    (l1.map fun a => (l2.map fun b => f a b).sum).sum
      = (l2.map fun b => (l1.map fun a => f a b).sum).sum := by
  induction l1 with
  | nil => simp
  | cons a t ih =>
      simp only [List.map_cons, List.sum_cons, ih, ← sum_map_add]

lemma sum_ite_count {α : Type} [DecidableEq α] (l : List α) (P : α → Prop)
    [DecidablePred P] (x : ℚ) :
    (l.map fun p => if P p then x else 0).sum
      = ((l.countP fun p => decide (P p) : ℕ) : ℚ) * x := by
  induction l with
  | nil => simp
  | cons a t ih =>
      by_cases h : P a
      · simp only [List.map_cons, List.sum_cons, List.countP_cons, if_pos h, ih,
          decide_eq_true_eq, h, if_true]
        push_cast; ring
      · simp only [List.map_cons, List.sum_cons, List.countP_cons, if_neg h, ih,
          decide_eq_true_eq, h, if_false, zero_add, Nat.add_zero]

lemma countP_eq_card {α : Type} [DecidableEq α] (l : List α) (hk : l.Nodup)
    (P : α → Bool) : l.countP P = (l.filter P).toFinset.card := by
  rw [List.countP_eq_length_filter, List.toFinset_card_of_nodup (hk.filter P)]

lemma sum_map_bump (ks : List Page) (hk : ks.Nodup) (cur : Page)
    (hc : cur ∈ ks) (cnt : Page → ℕ) :
    (ks.map fun p => if p = cur then cnt p + 1 else cnt p).sum
      = (ks.map cnt).sum + 1 := by
  induction ks with
  | nil => cases hc
  | cons a t ih =>
      have hk1 : a ∉ t := (List.nodup_cons.mp hk).1
      have hk2 : t.Nodup := (List.nodup_cons.mp hk).2
      by_cases h1 : cur = a
      · have ht : List.map (fun p => if p = cur then cnt p + 1 else cnt p) t
            = List.map cnt t := by
          refine List.map_congr_left fun p hp => ?_
          have hne : p ≠ cur := fun h => hk1 (by rw [← h1, ← h]; exact hp)
          simp [hne]
        rw [List.map_cons, List.sum_cons, List.map_cons, List.sum_cons, ht,
          h1, if_pos rfl]
        omega
      · have hmem : cur ∈ t := by
          rcases List.mem_cons.mp hc with h2 | h2
          · exact absurd h2 h1
          · exact h2
        have hne : a ≠ cur := fun h => h1 h.symm
        rw [List.map_cons, List.sum_cons, List.map_cons, List.sum_cons,
          if_neg hne, ih hk2 hmem]
        omega

lemma pickIndex_mem (l : List Page) (h : l ≠ []) (r : Nat) :
    pickIndex l r ∈ l := by
  have hlen : r % l.length < l.length :=
    Nat.mod_lt _ (List.length_pos.mpr h)
  rw [pickIndex, List.getD_eq_getElem l 0 hlen]
  exact List.getElem_mem hlen

lemma dictKeys_mkDict (ks : List Page) (f : Page → ℚ) :
    dictKeys (mkDict ks f) = ks := by
  simp [dictKeys, mkDict, List.map_map, Function.comp_def]

lemma dictSum_mkDict (ks : List Page) (f : Page → ℚ) :
    dictSum (mkDict ks f) = (ks.map f).sum := by
  simp [dictSum, mkDict, List.map_map, Function.comp_def]

lemma mem_mkDict {ks : List Page} {f : Page → ℚ} {kv : Page × ℚ} :
    kv ∈ mkDict ks f ↔ ∃ p ∈ ks, kv = (p, f p) := by
  simp only [mkDict, List.mem_map, eq_comm]

lemma lookupD_mkDict (ks : List Page) (f : Page → ℚ) (q : Page)
    (hk : ks.Nodup) (hq : q ∈ ks) : lookupD (mkDict ks f) q = f q := by
  induction ks with
  | nil => cases hq
  | cons a t ih =>
      by_cases h : a = q
      · subst h
        simp [lookupD, mkDict, List.find?_cons_of_pos]
      · have hq2 : q ∈ t := by
          rcases List.mem_cons.mp hq with h1 | h1
          · exact absurd h1.symm h
          · exact h1
        have := ih (List.nodup_cons.mp hk).2 hq2
        simpa [lookupD, mkDict, List.find?_cons_of_neg, h] using this

lemma sum_map_mul_right {α : Type} (l : List α) (f : α → ℚ) (a : ℚ) :
    (l.map fun x => f x * a).sum = (l.map f).sum * a := by
  induction l with
  | nil => simp
  | cons b t ih => simp only [List.map_cons, List.sum_cons, ih]; ring

lemma countP_eq_one (ks : List Page) (hk : ks.Nodup) (a : Page) (ha : a ∈ ks) :
    (ks.countP fun p => decide (p = a)) = 1 := by
  rw [countP_eq_card ks hk]
  have hset : (ks.filter fun p => decide (p = a)).toFinset = {a} := by
    ext x
    simp only [List.mem_toFinset, List.mem_filter, decide_eq_true_eq,
      Finset.mem_singleton]
    constructor
    · rintro ⟨_, h⟩; exact h
    · rintro rfl; exact ⟨ha, rfl⟩
  rw [hset, Finset.card_singleton]

lemma sum_count (ks ls : List Page) (hk : ks.Nodup)
    (hsub : ∀ x ∈ ls, x ∈ ks) :
    (ks.map fun q => (ls.count q : ℚ)).sum = (ls.length : ℚ) := by
  induction ls with
  | nil => simp
  | cons a t ih =>
      have hsub2 : ∀ x ∈ t, x ∈ ks := fun x hx =>
        hsub x (List.mem_cons_of_mem a hx)
      have ha : a ∈ ks := hsub a (List.mem_cons_self a t)
      have hcons : ∀ q ∈ ks, (((a :: t).count q : ℕ) : ℚ)
          = ((t.count q : ℕ) : ℚ) + (if q = a then 1 else 0) := by
        intro q _
        rw [List.count_cons]
        by_cases h : q = a
        · simp [h]
        · have h2 : ¬ a = q := fun hh => h hh.symm
          simp [h, h2]
      rw [List.map_congr_left hcons, sum_map_add, ih hsub2,
        sum_ite_count ks (fun p => p = a) 1, countP_eq_one ks hk a ha]
      push_cast [List.length_cons]
      ring

lemma length_pos_of_mem_keys {c : Corpus} {p : Page} (h : p ∈ keys c) :
    0 < c.length := by
  cases c with
  | nil => cases h
  | cons kv t => simp

lemma linksOf_spec (c : Corpus) (p : Page) :
    linksOf c p = [] ∨ ∃ kv ∈ c, kv.1 = p ∧ linksOf c p = kv.2 := by
  unfold linksOf
  cases hf : c.find? fun kv => kv.1 == p with
  | none => left; rfl
  | some kv =>
      right
      refine ⟨kv, List.mem_of_find?_eq_some hf, ?_, rfl⟩
      have := List.find?_some hf
      simpa using this

lemma WF.links_nodup {c : Corpus} (h : WF c) (p : Page) :
    (linksOf c p).Nodup := by
  rcases linksOf_spec c p with h1 | ⟨kv, hkv, _, h2⟩
  · rw [h1]; exact List.nodup_nil
  · rw [h2]; exact (h.2 kv hkv).1

lemma WF.links_sub {c : Corpus} (h : WF c) (p : Page) :
    ∀ l ∈ linksOf c p, l ∈ keys c := by
  rcases linksOf_spec c p with h1 | ⟨kv, hkv, _, h2⟩
  · rw [h1]; intro l hl; cases hl
  · rw [h2]; exact (h.2 kv hkv).2

instance WF.decidable (c : Corpus) : Decidable (WF c) := by
  unfold WF; infer_instance

instance NoSelf.decidable (c : Corpus) : Decidable (NoSelf c) := by
  unfold NoSelf; infer_instance

/- ### The transition model: claims C1 and C7 -/

/-- C1: for a well formed corpus, a current page that is one of its keys
    and a damping factor in the unit interval, transition_model gives
    every corpus page the base probability (1 - d) / num_pages plus,
    exactly for the pages in the link set of the current page, the extra
    d / num_links; when the current page has no outgoing links every
    page gets the uniform 1 / num_pages. -/
theorem transition_model_values_spec (c : Corpus) (page : Page) (d : ℚ)
    (hwf : WF c) (_hpage : page ∈ keys c) (_hd0 : 0 ≤ d) (_hd1 : d ≤ 1) :
    (0 < (linksOf c page).length →
      ∀ q ∈ keys c, lookupD (transition_model c page d) q
        = (1 - d) / (c.length : ℚ)
          + (if q ∈ linksOf c page
             then d / ((linksOf c page).length : ℚ) else 0)) ∧
    ((linksOf c page).length = 0 →
      ∀ q ∈ keys c, lookupD (transition_model c page d) q
        = 1 / (c.length : ℚ)) := by
  constructor
  · intro hl q hq
    simp only [transition_model, if_pos hl]
    rw [lookupD_mkDict _ _ _ hwf.1 hq,
      List.count_eq_of_nodup (hwf.links_nodup page)]
    by_cases hmem : q ∈ linksOf c page
    · simp [hmem]
    · simp [hmem]
  · intro hl q hq
    simp only [transition_model]
    rw [if_neg (by omega)]
    exact lookupD_mkDict _ _ _ hwf.1 hq

/-- Witness for C1 at the two page cycle, current page 0, damping 0.85:
    page 1 is linked, so its probability carries the extra term. -/
theorem transition_model_values_spec_witness :
    lookupD (transition_model cTwo 0 (17/20)) 1
      = (1 - 17/20) / ((cTwo.length : ℕ) : ℚ)
        + (if 1 ∈ linksOf cTwo 0
           then (17/20) / (((linksOf cTwo 0).length : ℕ) : ℚ) else 0) :=
  (transition_model_values_spec cTwo 0 (17/20) (by decide) (by decide)
    (by norm_num) (by norm_num)).1 (by decide) 1 (by decide)

/-- C7: for a well formed corpus and a current page among its keys, the
    probabilities returned by transition_model add up to exactly 1. -/
theorem transition_model_sum_one (c : Corpus) (page : Page) (d : ℚ)
    (hwf : WF c) (hpage : page ∈ keys c) :
    dictSum (transition_model c page d) = 1 := by
  have hN : (0:ℚ) < (c.length : ℚ) := by
    exact_mod_cast length_pos_of_mem_keys hpage
  have hkeys : ((keys c).length : ℚ) = (c.length : ℚ) := by
    simp [keys]
  simp only [transition_model]
  by_cases hl : 0 < (linksOf c page).length
  · have hlQ : (0:ℚ) < ((linksOf c page).length : ℚ) := by exact_mod_cast hl
    rw [if_pos hl, dictSum_mkDict, sum_map_add, sum_map_const,
      sum_map_mul_right, sum_count (keys c) (linksOf c page) hwf.1
        (hwf.links_sub page), hkeys]
    field_simp
  · rw [if_neg hl, dictSum_mkDict, sum_map_const, hkeys]
    field_simp

/-- Witness for C7 at the two page cycle. -/
theorem transition_model_sum_one_witness :
    dictSum (transition_model cTwo 0 (17/20)) = 1 :=
  transition_model_sum_one cTwo 0 (17/20) (by decide) (by decide)

/- ### The sampling estimator: claims C3, C4 and C8 -/

lemma keys_ne_nil {c : Corpus} (hc : c ≠ []) : keys c ≠ [] := by
  cases c with
  | nil => exact absurd rfl hc
  | cons kv t => simp [keys]

lemma transition_model_keys (c : Corpus) (p : Page) (d : ℚ) :
    dictKeys (transition_model c p d) = keys c := by
  simp only [transition_model]
  by_cases hl : 0 < (linksOf c p).length
  · rw [if_pos hl, dictKeys_mkDict]
  · rw [if_neg hl, dictKeys_mkDict]

lemma sum_map_natCast (l : List Page) (f : Page → ℕ) :
    (l.map fun p => ((f p : ℕ) : ℚ)).sum = (((l.map f).sum : ℕ) : ℚ) := by
  induction l with
  | nil => simp
  | cons a t ih => simp [ih]

/-- The walk only ever stands on corpus keys, and each of the steps many
    iterations adds exactly one visit: the grand total of the counters
    grows by exactly steps. -/
lemma sampleLoop_sum (c : Corpus) (d : ℚ) (rand : Nat → Nat) (hc : c ≠ [])
    (hk : (keys c).Nodup) :
    ∀ (steps i : Nat) (cur : Page) (cnt : Page → ℕ), cur ∈ keys c →
      ((keys c).map (sampleLoop c d rand steps i cur cnt)).sum
        = ((keys c).map cnt).sum + steps := by
  intro steps
  induction steps with
  | zero => intro i cur cnt _; simp [sampleLoop]
  | succ m ih =>
      intro i cur cnt hcur
      have hnext : pickIndex (dictKeys (transition_model c cur d)) (rand i)
          ∈ keys c := by
        rw [transition_model_keys]
        exact pickIndex_mem _ (keys_ne_nil hc) _
      simp only [sampleLoop]
      rw [ih (i+1) _ _ hnext, sum_map_bump (keys c) hk cur hcur cnt]
      omega

/-- The walk never reads the oracle at an index whose draw is not
    tallied: two oracles that agree on the consumed indices produce the
    same counters. -/
lemma sampleLoop_congr (c : Corpus) (d : ℚ) (rand rand2 : Nat → Nat) :
    ∀ (steps i : Nat) (cur : Page) (cnt : Page → ℕ),
      (∀ j, i ≤ j → j + 1 < i + steps → rand j = rand2 j) →
      sampleLoop c d rand steps i cur cnt
        = sampleLoop c d rand2 steps i cur cnt := by
  intro steps
  induction steps with
  | zero => intro i cur cnt _; rfl
  | succ m ih =>
      intro i cur cnt hag
      cases m with
      | zero => rfl
      | succ k =>
          have hr : rand i = rand2 i := hag i le_rfl (by omega)
          simp only [sampleLoop, hr]
          exact ih (i+1) _ _ fun j hj1 hj2 => hag j (by omega) (by omega)

/-- On a non empty corpus with a non zero sample count the function
    returns normally, with the normalised counters of the walk. -/
lemma sample_pagerank_ok (c : Corpus) (d : ℚ) (n : ℤ) (rand : Nat → Nat)
    (hc : c ≠ []) (hn : n ≠ 0) :
    sample_pagerank c d n rand = .ok (mkDict (keys c) fun p =>
      ((sampleLoop c d rand (n-1).toNat 1 (pickIndex (keys c) (rand 0))
          fun _ => 0) p : ℚ) / (n : ℚ)) := by
  have hemp : c.isEmpty = false := by
    cases c with
    | nil => exact absurd rfl hc
    | cons kv t => rfl
  simp only [sample_pagerank, hemp, Bool.false_eq_true, if_false, if_neg hn]

/-- Concrete run of the sampler on the two page cycle with oracle draws
    0, 1, ...: the walk starts at page 0, tallies it, moves to page 1
    and stops, so page 0 carries the single counted visit. -/
lemma sample_cTwo_eval :
    sample_pagerank cTwo (17/20) 2 (fun i => i) = .ok [(0, 1/2), (1, 0)] := by
  rw [sample_pagerank_ok cTwo (17/20) 2 (fun i => i) (by decide) (by decide)]
  norm_num [sampleLoop, mkDict, keys, cTwo, pickIndex, transition_model,
    dictKeys, linksOf]

/-- Concrete run of the iterative estimator on the two page cycle: the
    uniform start is already a fixed point, so one sweep converges. -/
lemma iterate_cTwo_eval :
    iterate_pagerank cTwo (17/20) 1 = some [(0, 1/2), (1, 1/2)] := by
  have hok : stepOK cTwo (17/20) (initRank cTwo) := by
    intro p hp
    simp only [keys, cTwo, List.map_cons, List.map_nil, List.mem_cons,
      List.mem_singleton] at hp
    rcases hp with rfl | hp
    · norm_num [sweep, sweepSum, initRank, cTwo, tol]
    · rcases hp with rfl | hp
      · norm_num [sweep, sweepSum, initRank, cTwo, tol]
      · cases hp
  simp only [iterate_pagerank, iterLoop, if_pos hok, Option.map_some]
  norm_num [mkDict, keys, cTwo, sweep, sweepSum, initRank]

/-- C3 (amended): for a well formed non empty corpus and n at least 1,
    sample_pagerank returns a mapping whose values sum to exactly
    (n - 1) / n, with all values zero when n = 1; and the result only
    depends on the first n - 1 oracle draws, the terminal draw is never
    tallied (the first drawn page, by contrast, is tallied whenever
    n is at least 2). -/
theorem sample_pagerank_mass (c : Corpus) (d : ℚ) (n : ℤ)
    (rand rand2 : Nat → Nat) (hwf : WF c) (hc : c ≠ []) (hn : 1 ≤ n) :
    (∃ r, sample_pagerank c d n rand = .ok r ∧
       dictSum r = ((n : ℚ) - 1) / (n : ℚ) ∧
       (n = 1 → ∀ kv ∈ r, kv.2 = 0)) ∧
    ((∀ i : ℕ, (i : ℤ) < n - 1 → rand i = rand2 i) →
       sample_pagerank c d n rand = sample_pagerank c d n rand2) := by
  have hn0 : n ≠ 0 := by omega
  constructor
  · refine ⟨_, sample_pagerank_ok c d n rand hc hn0, ?_, ?_⟩
    · rw [dictSum_mkDict, sum_map_div, sum_map_natCast,
        sampleLoop_sum c d rand hc hwf.1 _ 1 _ _
          (pickIndex_mem _ (keys_ne_nil hc) _)]
      have hz : ((keys c).map fun _ => (0:ℕ)).sum = 0 := by simp
      rw [hz]
      have ht : (((n-1).toNat : ℕ) : ℤ) = n - 1 :=
        Int.toNat_of_nonneg (by omega)
      have ht2 : (((n-1).toNat : ℕ) : ℚ) = (n : ℚ) - 1 := by
        exact_mod_cast congrArg (fun z : ℤ => (z : ℚ)) ht
      rw [Nat.zero_add, ht2]
    · intro h1
      subst h1
      intro kv hkv
      rw [mem_mkDict] at hkv
      obtain ⟨p, hp, rfl⟩ := hkv
      have hz : ((1:ℤ) - 1).toNat = 0 := rfl
      simp [hz, sampleLoop]
  · intro hag
    rw [sample_pagerank_ok c d n rand hc hn0,
      sample_pagerank_ok c d n rand2 hc hn0]
    by_cases h1 : n = 1
    · subst h1; rfl
    · have h2 : 2 ≤ n := by omega
      have hr0 : rand 0 = rand2 0 := hag 0 (by push_cast; omega)
      have ht : (((n-1).toNat : ℕ) : ℤ) = n - 1 :=
        Int.toNat_of_nonneg (by omega)
      have hcong := sampleLoop_congr c d rand rand2 (n-1).toNat 1
        (pickIndex (keys c) (rand2 0)) (fun _ => 0)
        (fun j hj1 hj2 => hag j (by omega))
      rw [hr0, hcong]

/-- C3 counterexample: on the two page cycle with oracle draws 0 then 1
    and n = 2, the first randomly drawn page is page 0, the walk draws
    it only that once, and the returned mapping still gives it rank 1/2
    rather than 0: the first draw is tallied; it is the terminal draw
    that is not. -/
theorem sample_first_draw_tallied :
    sample_pagerank cTwo (17/20) 2 (fun i => i) = .ok [(0, 1/2), (1, 0)] ∧
    pickIndex (keys cTwo) 0 = 0 ∧
    lookupD [(0, 1/2), (1, 0)] 0 ≠ 0 :=
  ⟨sample_cTwo_eval, rfl, by norm_num [lookupD, List.find?]⟩

/-- C4 (amended): the code has no typed invalid input failure.
    sample_pagerank raises the builtin IndexError on an empty corpus and
    ZeroDivisionError when n = 0, but silently returns an all zero
    mapping for negative n; iterate_pagerank does not fail on an empty
    corpus at all, it returns the empty mapping. -/
theorem precondition_behavior :
    (∀ (d : ℚ) (n : ℤ) (rand : Nat → Nat),
       sample_pagerank [] d n rand = .error .indexError) ∧
    (∀ (c : Corpus) (d : ℚ) (rand : Nat → Nat), c ≠ [] →
       sample_pagerank c d 0 rand = .error .zeroDivisionError) ∧
    (∀ (c : Corpus) (d : ℚ) (n : ℤ) (rand : Nat → Nat), c ≠ [] → n < 0 →
       ∃ r, sample_pagerank c d n rand = .ok r ∧ ∀ kv ∈ r, kv.2 = 0) ∧
    (∀ (d : ℚ) (fuel : Nat), 1 ≤ fuel →
       iterate_pagerank [] d fuel = some []) := by
  refine ⟨?_, ?_, ?_, ?_⟩
  · intro d n rand; rfl
  · intro c d rand hc
    have hemp : c.isEmpty = false := by
      cases c with
      | nil => exact absurd rfl hc
      | cons kv t => rfl
    simp [sample_pagerank, hemp]
  · intro c d n rand hc hn
    refine ⟨_, sample_pagerank_ok c d n rand hc (by omega), ?_⟩
    intro kv hkv
    rw [mem_mkDict] at hkv
    obtain ⟨p, hp, rfl⟩ := hkv
    have hz : (n - 1).toNat = 0 := by omega
    simp [hz, sampleLoop]
  · intro d fuel hf
    obtain ⟨f2, rfl⟩ : ∃ f2, fuel = f2 + 1 := ⟨fuel - 1, by omega⟩
    have hok : stepOK [] d (initRank []) := by intro p hp; cases hp
    simp [iterate_pagerank, iterLoop, if_pos hok, mkDict, keys]

/-- C4 counterexample: on the empty corpus iterate_pagerank returns the
    empty mapping instead of failing, and with the negative count n = -3
    sample_pagerank returns an all zero mapping instead of failing. -/
theorem precondition_behavior_counterexample :
    iterate_pagerank [] (17/20) 1 = some [] ∧
    sample_pagerank cTwo (17/20) (-3) (fun i => i) = .ok [(0, 0), (1, 0)] := by
  constructor
  · have hok : stepOK [] (17/20) (initRank []) := by intro p hp; cases hp
    simp [iterate_pagerank, iterLoop, if_pos hok, mkDict, keys]
  · rw [sample_pagerank_ok cTwo (17/20) (-3) (fun i => i) (by decide)
      (by decide)]
    norm_num [sampleLoop, mkDict, keys, cTwo]

/-- C8: whenever either estimator returns a rank mapping, its key list
    is exactly the key list of the corpus, in the same order. -/
theorem result_keys_match (c : Corpus) (d : ℚ) (n : ℤ) (rand : Nat → Nat)
    (fuel : Nat) (hc : c ≠ []) :
    (∀ r, sample_pagerank c d n rand = .ok r → dictKeys r = keys c) ∧
    (∀ r, iterate_pagerank c d fuel = some r → dictKeys r = keys c) := by
  constructor
  · intro r hr
    by_cases hn : n = 0
    · subst hn
      have hemp : c.isEmpty = false := by
        cases c with
        | nil => exact absurd rfl hc
        | cons kv t => rfl
      simp [sample_pagerank, hemp] at hr
    · rw [sample_pagerank_ok c d n rand hc hn] at hr
      injection hr with h
      rw [← h, dictKeys_mkDict]
  · intro r hr
    unfold iterate_pagerank at hr
    cases hiter : iterLoop c d fuel (initRank c) with
    | none => rw [hiter] at hr; cases hr
    | some f =>
        rw [hiter] at hr
        simp only [Option.map_some', Option.some.injEq] at hr
        rw [← hr, dictKeys_mkDict]

/-- Witness for C8: the key lists of both concrete results on the two
    page cycle equal the corpus key list. -/
theorem result_keys_match_witness :
    dictKeys [((0:Page), (1:ℚ)/2), (1, 0)] = keys cTwo ∧
    dictKeys [((0:Page), (1:ℚ)/2), (1, 1/2)] = keys cTwo :=
  ⟨(result_keys_match cTwo (17/20) 2 (fun i => i) 1 (by decide)).1 _
      sample_cTwo_eval,
   (result_keys_match cTwo (17/20) 2 (fun i => i) 1 (by decide)).2 _
      iterate_cTwo_eval⟩

/-- Witness for C3 on the two page cycle with n = 2: the mass is 1/2,
    and changing the oracle beyond index 0 does not change the result. -/
theorem sample_pagerank_mass_witness :
    (∃ r, sample_pagerank cTwo (17/20) 2 (fun i => i) = .ok r ∧
       dictSum r = (((2:ℤ) : ℚ) - 1) / ((2:ℤ) : ℚ) ∧
       ((2:ℤ) = 1 → ∀ kv ∈ r, kv.2 = 0)) ∧
    sample_pagerank cTwo (17/20) 2 (fun i => i)
      = sample_pagerank cTwo (17/20) 2 (fun i => if i = 0 then 0 else 7) :=
  have h := sample_pagerank_mass cTwo (17/20) 2 (fun i => i)
    (fun i => if i = 0 then 0 else 7) (by decide) (by decide) (by norm_num)
  ⟨h.1, h.2 fun i hi => by
    have hi0 : i = 0 := by omega
    simp [hi0]⟩

/-- Witness for C4 at concrete inputs: both failure modes, the silent
    negative n success, and the silent empty corpus success. -/
theorem precondition_behavior_witness :
    sample_pagerank [] (17/20) 5 (fun i => i) = .error .indexError ∧
    sample_pagerank cTwo (17/20) 0 (fun i => i) = .error .zeroDivisionError ∧
    (∃ r, sample_pagerank cTwo (17/20) (-3) (fun i => i) = .ok r ∧
       ∀ kv ∈ r, kv.2 = 0) ∧
    iterate_pagerank [] (17/20) 1 = some [] :=
  ⟨precondition_behavior.1 (17/20) 5 (fun i => i),
   precondition_behavior.2.1 cTwo (17/20) (fun i => i) (by decide),
   precondition_behavior.2.2.1 cTwo (17/20) (-3) (fun i => i) (by decide)
     (by norm_num),
   precondition_behavior.2.2.2 (17/20) 1 le_rfl⟩

/- ### The iterative estimator: claims C2, C6, C9 and C10 -/

/-- The linear coefficient with which the rank of the corpus entry kv
    enters the sweep value of page p: the incoming link share (with the
    self exclusion of the source) plus the dangling page share. -/
def coef (c : Corpus) (p : Page) (kv : Page × List Page) : ℚ :=
  (if p ≠ kv.1 ∧ p ∈ kv.2 then 1 / (kv.2.length : ℚ) else 0) +
  (if kv.2 = [] then 1 / (c.length : ℚ) else 0)

lemma sweepSum_coef (c : Corpus) (pr : Page → ℚ) (p : Page) :
    sweepSum c pr p = (c.map fun kv => coef c p kv * pr kv.1).sum := by
  unfold sweepSum
  refine congrArg List.sum (List.map_congr_left fun kv _ => ?_)
  unfold coef
  split_ifs <;> ring

lemma coef_nonneg (c : Corpus) (p : Page) (kv : Page × List Page) :
    0 ≤ coef c p kv := by
  unfold coef
  have h1 : (0:ℚ) ≤ 1 / (kv.2.length : ℚ) := by positivity
  have h2 : (0:ℚ) ≤ 1 / (c.length : ℚ) := by positivity
  split_ifs <;> simp [h1, h2, add_nonneg]

lemma keys_length (c : Corpus) : ((keys c).length : ℚ) = (c.length : ℚ) := by
  simp [keys]

lemma length_cast_pos {c : Corpus} (hc : c ≠ []) : (0:ℚ) < (c.length : ℚ) := by
  exact_mod_cast List.length_pos.mpr hc

lemma colsum_dangling (c : Corpus) (hc : c ≠ []) :
    ((keys c).map fun _ => 1 / (c.length : ℚ)).sum = 1 := by
  rw [sum_map_const, keys_length]
  have hN : (c.length : ℚ) ≠ 0 := ne_of_gt (length_cast_pos hc)
  field_simp

lemma colsum_links_le (c : Corpus) (hk : (keys c).Nodup) (q : Page)
    (ls : List Page) :
    ((keys c).map fun p =>
        if p ≠ q ∧ p ∈ ls then 1 / (ls.length : ℚ) else 0).sum ≤ 1 := by
  rw [sum_ite_count]
  by_cases hls : ls.length = 0
  · have hls2 : ls = [] := List.length_eq_zero.mp hls
    subst hls2
    simp
  · have hsubset : ((keys c).filter fun p =>
        decide (p ≠ q ∧ p ∈ ls)).toFinset ⊆ ls.toFinset := by
      intro x hx
      simp only [List.mem_toFinset, List.mem_filter, decide_eq_true_eq] at hx ⊢
      exact hx.2.2
    have hcount : ((keys c).countP fun p => decide (p ≠ q ∧ p ∈ ls))
        ≤ ls.length := by
      rw [countP_eq_card _ hk]
      exact (Finset.card_le_card hsubset).trans (List.toFinset_card_le ls)
    have hlen : (0:ℚ) < (ls.length : ℚ) := by
      exact_mod_cast Nat.pos_of_ne_zero hls
    calc (((keys c).countP fun p => decide (p ≠ q ∧ p ∈ ls) : ℕ) : ℚ)
          * (1 / (ls.length : ℚ))
        ≤ (ls.length : ℚ) * (1 / (ls.length : ℚ)) := by
          apply mul_le_mul_of_nonneg_right
          · exact_mod_cast hcount
          · positivity
      _ = 1 := by field_simp

lemma colsum_links_eq (c : Corpus) (hk : (keys c).Nodup) (q : Page)
    (ls : List Page) (hnd : ls.Nodup) (hsub : ∀ x ∈ ls, x ∈ keys c)
    (hq : q ∉ ls) (hlen : ls ≠ []) :
    ((keys c).map fun p =>
        if p ≠ q ∧ p ∈ ls then 1 / (ls.length : ℚ) else 0).sum = 1 := by
  have hcond : ∀ p ∈ keys c,
      (if p ≠ q ∧ p ∈ ls then 1 / (ls.length : ℚ) else 0)
        = (if p ∈ ls then 1 / (ls.length : ℚ) else 0) := by
    intro p _
    by_cases hm : p ∈ ls
    · have hne : p ≠ q := fun h => hq (h ▸ hm)
      simp [hm, hne]
    · simp [hm]
  rw [List.map_congr_left hcond, sum_ite_count]
  have hcnt : ((keys c).countP fun p => decide (p ∈ ls)) = ls.length := by
    rw [countP_eq_card _ hk]
    have hset : ((keys c).filter fun p => decide (p ∈ ls)).toFinset
        = ls.toFinset := by
      ext x
      simp only [List.mem_toFinset, List.mem_filter, decide_eq_true_eq]
      exact ⟨fun h => h.2, fun h => ⟨hsub x h, h⟩⟩
    rw [hset, List.toFinset_card_of_nodup hnd]
  rw [hcnt]
  have hl : (0:ℚ) < (ls.length : ℚ) := by
    have := List.length_pos.mpr hlen
    exact_mod_cast this
  field_simp

/-- The self linking column: when q appears in its own link list, the
    excluded self contribution makes the column sum strictly short of 1,
    by exactly 1 / len. -/
lemma colsum_links_self (c : Corpus) (hk : (keys c).Nodup) (q : Page)
    (ls : List Page) (hnd : ls.Nodup) (hsub : ∀ x ∈ ls, x ∈ keys c)
    (hq : q ∈ ls) :
    ((keys c).map fun p =>
        if p ≠ q ∧ p ∈ ls then 1 / (ls.length : ℚ) else 0).sum
      = ((ls.length : ℚ) - 1) / (ls.length : ℚ) := by
  rw [sum_ite_count]
  have hlenpos : 0 < ls.length := List.length_pos.mpr (by
    intro h; rw [h] at hq; cases hq)
  have hcnt : ((keys c).countP fun p => decide (p ≠ q ∧ p ∈ ls))
      = ls.length - 1 := by
    rw [countP_eq_card _ hk]
    have hset : ((keys c).filter fun p => decide (p ≠ q ∧ p ∈ ls)).toFinset
        = ls.toFinset.erase q := by
      ext x
      simp only [List.mem_toFinset, List.mem_filter, decide_eq_true_eq,
        Finset.mem_erase]
      constructor
      · rintro ⟨_, hne, hmem⟩; exact ⟨hne, hmem⟩
      · rintro ⟨hne, hmem⟩; exact ⟨hsub x hmem, hne, hmem⟩
    rw [hset, Finset.card_erase_of_mem (List.mem_toFinset.mpr hq),
      List.toFinset_card_of_nodup hnd]
  rw [hcnt]
  have hcast : ((ls.length - 1 : ℕ) : ℚ) = (ls.length : ℚ) - 1 := by
    have : 1 ≤ ls.length := hlenpos
    push_cast [Nat.cast_sub this]
    ring
  rw [hcast]
  have hl : (0:ℚ) < (ls.length : ℚ) := by exact_mod_cast hlenpos
  field_simp

/-- Under the full data model invariants every column of the sweep
    matrix sums to exactly 1: a sweep redistributes the whole mass. -/
lemma colsum_eq_one (c : Corpus) (hwf : WF c) (hns : NoSelf c) (hc : c ≠ [])
    {kv : Page × List Page} (hkv : kv ∈ c) :
    ((keys c).map fun p => coef c p kv).sum = 1 := by
  unfold coef
  rw [sum_map_add]
  by_cases hd : kv.2 = []
  · have h1 : ((keys c).map fun p =>
        if p ≠ kv.1 ∧ p ∈ kv.2 then 1 / (kv.2.length : ℚ) else 0).sum = 0 := by
      rw [hd]
      simp
    have h2 : ((keys c).map fun p =>
        if kv.2 = [] then 1 / (c.length : ℚ) else 0).sum = 1 := by
      have : ∀ p ∈ keys c, (if kv.2 = [] then 1 / (c.length : ℚ) else 0)
          = 1 / (c.length : ℚ) := fun p _ => if_pos hd
      rw [List.map_congr_left this, colsum_dangling c hc]
    rw [h1, h2, zero_add]
  · have h1 : ((keys c).map fun p =>
        if p ≠ kv.1 ∧ p ∈ kv.2 then 1 / (kv.2.length : ℚ) else 0).sum = 1 :=
      colsum_links_eq c hwf.1 kv.1 kv.2 (hwf.2 kv hkv).1 (hwf.2 kv hkv).2
        (hns kv hkv) hd
    have h2 : ((keys c).map fun p =>
        if kv.2 = [] then 1 / (c.length : ℚ) else 0).sum = 0 := by
      have : ∀ p ∈ keys c, (if kv.2 = [] then 1 / (c.length : ℚ) else 0)
          = 0 := fun p _ => if_neg hd
      rw [List.map_congr_left this]
      simp
    rw [h1, h2, add_zero]

/-- Every column of the sweep matrix sums to at most 1, with no
    assumption beyond distinct dict keys; this is the substochasticity
    that drives both mass loss and convergence. -/
lemma colsum_le_one (c : Corpus) (hk : (keys c).Nodup) (hc : c ≠ [])
    (kv : Page × List Page) :
    ((keys c).map fun p => coef c p kv).sum ≤ 1 := by
  unfold coef
  rw [sum_map_add]
  by_cases hd : kv.2 = []
  · have h1 : ((keys c).map fun p =>
        if p ≠ kv.1 ∧ p ∈ kv.2 then 1 / (kv.2.length : ℚ) else 0).sum = 0 := by
      rw [hd]; simp
    have h2 : ((keys c).map fun p =>
        if kv.2 = [] then 1 / (c.length : ℚ) else 0).sum = 1 := by
      have : ∀ p ∈ keys c, (if kv.2 = [] then 1 / (c.length : ℚ) else 0)
          = 1 / (c.length : ℚ) := fun p _ => if_pos hd
      rw [List.map_congr_left this, colsum_dangling c hc]
    rw [h1, h2, zero_add]
  · have h2 : ((keys c).map fun p =>
        if kv.2 = [] then 1 / (c.length : ℚ) else 0).sum = 0 := by
      have : ∀ p ∈ keys c, (if kv.2 = [] then 1 / (c.length : ℚ) else 0)
          = 0 := fun p _ => if_neg hd
      rw [List.map_congr_left this]
      simp
    rw [h2, add_zero]
    exact colsum_links_le c hk kv.1 kv.2

lemma sumKeys_eq_map (c : Corpus) (pr : Page → ℚ) :
    sumKeys c pr = (c.map fun kv => pr kv.1).sum := by
  simp [sumKeys, keys, List.map_map, Function.comp_def]

/-- A sweep is affine in the previous ranks, with total
    (1 - d) + d times the coefficient weighted mass. -/
lemma sumKeys_sweep (c : Corpus) (d : ℚ) (pr : Page → ℚ) (hc : c ≠ []) :
    sumKeys c (sweep c d pr)
      = (1 - d) + d * (c.map fun kv =>
          ((keys c).map fun p => coef c p kv).sum * pr kv.1).sum := by
  unfold sumKeys sweep
  have hsplit : ((keys c).map fun current =>
      (1 - d) / (c.length : ℚ) + d * sweepSum c pr current).sum
      = ((keys c).map fun _ => (1 - d) / (c.length : ℚ)).sum
        + ((keys c).map fun current => d * sweepSum c pr current).sum :=
    sum_map_add _ _ _
  rw [hsplit, sum_map_const, keys_length, sum_map_mul_left]
  have hN : (c.length : ℚ) ≠ 0 := ne_of_gt (length_cast_pos hc)
  have hconst : (c.length : ℚ) * ((1 - d) / (c.length : ℚ)) = 1 - d := by
    field_simp
  rw [hconst]
  congr 1
  have hsumsum : ((keys c).map fun current => sweepSum c pr current).sum
      = (c.map fun kv =>
          ((keys c).map fun p => coef c p kv * pr kv.1).sum).sum := by
    have : ∀ current ∈ keys c, sweepSum c pr current
        = (c.map fun kv => coef c current kv * pr kv.1).sum :=
      fun current _ => sweepSum_coef c pr current
    rw [List.map_congr_left this]
    exact sum_sum_comm (keys c) c fun p kv => coef c p kv * pr kv.1
  rw [hsumsum]
  congr 1
  refine congrArg List.sum (List.map_congr_left fun kv _ => ?_)
  rw [sum_map_mul_right]

/-- Under the data model invariants one sweep preserves the total mass
    exactly. -/
lemma sumKeys_sweep_eq (c : Corpus) (d : ℚ) (pr : Page → ℚ)
    (hwf : WF c) (hns : NoSelf c) (hc : c ≠ []) :
    sumKeys c (sweep c d pr) = (1 - d) + d * sumKeys c pr := by
  rw [sumKeys_sweep c d pr hc, sumKeys_eq_map]
  congr 2
  refine congrArg List.sum (List.map_congr_left fun kv hkv => ?_)
  rw [colsum_eq_one c hwf hns hc hkv, one_mul]

/-- Without self links the source guard current != page is redundant:
    the sweep value coincides with the unguarded recurrence of the
    specification. -/
lemma sweep_full_sum (c : Corpus) (d : ℚ) (pr : Page → ℚ) (p : Page)
    (hns : NoSelf c) :
    sweep c d pr p = (1 - d) / (c.length : ℚ)
      + d * ((c.map fun kv =>
            if p ∈ kv.2 then pr kv.1 / (kv.2.length : ℚ) else 0).sum
          + (c.map fun kv =>
            if kv.2 = [] then pr kv.1 / (c.length : ℚ) else 0).sum) := by
  unfold sweep sweepSum
  rw [sum_map_add]
  congr 3
  refine congrArg List.sum (List.map_congr_left fun kv hkv => ?_)
  by_cases hm : p ∈ kv.2
  · have hne : p ≠ kv.1 := fun h => hns kv hkv (h ▸ hm)
    simp [hm, hne]
  · simp [hm]

/-- Post condition extraction from the while loop: if P is preserved by
    the sweep and implies Q of the sweep, every value the loop returns
    from a P state satisfies Q. -/
lemma iterLoop_some_post (c : Corpus) (d : ℚ)
    (P Q : (Page → ℚ) → Prop)
    (hPQ : ∀ pr, P pr → Q (sweep c d pr))
    (hP : ∀ pr, P pr → P (sweep c d pr)) :
    ∀ (fuel : Nat) (pr f : Page → ℚ), P pr →
      iterLoop c d fuel pr = some f → Q f := by
  intro fuel
  induction fuel with
  | zero => intro pr f _ h; cases h
  | succ m ih =>
      intro pr f hpr h
      rw [iterLoop] at h
      by_cases hs : stepOK c d pr
      · rw [if_pos hs] at h
        injection h with h2
        rw [← h2]
        exact hPQ pr hpr
      · rw [if_neg hs] at h
        exact ih _ f (hP pr hpr) h

/-- C2: for a non empty well formed corpus with no self links and a
    damping factor in the unit interval, each sweep computes for every
    page p exactly the specified recurrence
    new[p] = (1 - d)/N + d (sum of rank q / |links q| over the pages q
    with p among their links, plus rank q / N for every page q without
    outgoing links, q = p included), all read from the previous sweep:
    the embedding passes the whole previous rank function pr to the
    sweep, the Jacobi simultaneous update. -/
theorem sweep_matches_recurrence (c : Corpus) (d : ℚ) (pr : Page → ℚ)
    (p : Page) (_hwf : WF c) (hns : NoSelf c) (_hc : c ≠ [])
    (_hd0 : 0 ≤ d) (_hd1 : d ≤ 1) :
    sweep c d pr p = (1 - d) / (c.length : ℚ)
      + d * ((c.map fun kv =>
            if p ∈ kv.2 then pr kv.1 / (kv.2.length : ℚ) else 0).sum
          + (c.map fun kv =>
            if kv.2 = [] then pr kv.1 / (c.length : ℚ) else 0).sum) :=
  sweep_full_sum c d pr p hns

/-- Witness for C2 on the two page cycle at page 0 with the uniform
    previous ranks. -/
theorem sweep_matches_recurrence_witness :
    sweep cTwo (17/20) (initRank cTwo) 0
      = (1 - 17/20) / (cTwo.length : ℚ)
        + (17/20) * ((cTwo.map fun kv =>
              if 0 ∈ kv.2 then initRank cTwo kv.1 / (kv.2.length : ℚ) else 0).sum
            + (cTwo.map fun kv =>
              if kv.2 = [] then initRank cTwo kv.1 / (cTwo.length : ℚ) else 0).sum) :=
  sweep_matches_recurrence cTwo (17/20) (initRank cTwo) 0 (by decide)
    (by decide) (by decide) (by norm_num) (by norm_num)

lemma sumKeys_init (c : Corpus) (hc : c ≠ []) :
    sumKeys c (initRank c) = 1 := by
  have hN : (c.length : ℚ) ≠ 0 := ne_of_gt (length_cast_pos hc)
  unfold sumKeys initRank
  rw [sum_map_const, keys_length]
  field_simp

/-- C6: for a non empty well formed corpus with no self links and no
    dangling links and a damping factor in the unit interval, the ranks
    sum to exactly 1 after initialisation, every sweep preserves the
    total exactly, and hence whatever iterate_pagerank returns has
    values summing to exactly 1. -/
theorem iterate_pagerank_mass (c : Corpus) (d : ℚ)
    (hwf : WF c) (hns : NoSelf c) (hc : c ≠ [])
    (_hd0 : 0 ≤ d) (_hd1 : d ≤ 1) :
    sumKeys c (initRank c) = 1 ∧
    (∀ pr, sumKeys c pr = 1 → sumKeys c (sweep c d pr) = 1) ∧
    (∀ fuel r, iterate_pagerank c d fuel = some r → dictSum r = 1) := by
  have hinit : sumKeys c (initRank c) = 1 := sumKeys_init c hc
  have hstep : ∀ pr, sumKeys c pr = 1 → sumKeys c (sweep c d pr) = 1 := by
    intro pr h
    rw [sumKeys_sweep_eq c d pr hwf hns hc, h]
    ring
  refine ⟨hinit, hstep, ?_⟩
  intro fuel r hr
  unfold iterate_pagerank at hr
  cases hiter : iterLoop c d fuel (initRank c) with
  | none => rw [hiter] at hr; cases hr
  | some f =>
      rw [hiter] at hr
      simp only [Option.map_some', Option.some.injEq] at hr
      have hf : sumKeys c f = 1 :=
        iterLoop_some_post c d (fun pr => sumKeys c pr = 1)
          (fun pr => sumKeys c pr = 1) (fun pr h => hstep pr h)
          (fun pr h => hstep pr h) fuel (initRank c) f hinit hiter
      rw [← hr, dictSum_mkDict]
      exact hf

/-- Witness for C6 on the two page cycle. -/
theorem iterate_pagerank_mass_witness :
    sumKeys cTwo (initRank cTwo) = 1 ∧ dictSum [((0:Page), (1:ℚ)/2), (1, 1/2)] = 1 :=
  have h := iterate_pagerank_mass cTwo (17/20) (by decide) (by decide)
    (by decide) (by norm_num) (by norm_num)
  ⟨h.1, h.2.2 1 [((0:Page), (1:ℚ)/2), (1, 1/2)] iterate_cTwo_eval⟩

lemma sweepSum_nonneg (c : Corpus) (pr : Page → ℚ)
    (h : ∀ p, 0 ≤ pr p) (current : Page) : 0 ≤ sweepSum c pr current := by
  apply List.sum_nonneg
  intro x hx
  simp only [List.mem_map] at hx
  obtain ⟨kv, _, rfl⟩ := hx
  apply add_nonneg
  · split_ifs
    · exact div_nonneg (h kv.1) (Nat.cast_nonneg _)
    · exact le_refl 0
  · split_ifs
    · exact div_nonneg (h kv.1) (Nat.cast_nonneg _)
    · exact le_refl 0

lemma sweep_lower (c : Corpus) (d : ℚ) (pr : Page → ℚ) (hd0 : 0 ≤ d)
    (hpr : ∀ p, 0 ≤ pr p) (p : Page) :
    (1 - d) / (c.length : ℚ) ≤ sweep c d pr p := by
  unfold sweep
  have h := mul_nonneg hd0 (sweepSum_nonneg c pr hpr p)
  linarith

lemma sweep_nonneg (c : Corpus) (d : ℚ) (pr : Page → ℚ) (hd0 : 0 ≤ d)
    (hd1 : d ≤ 1) (hpr : ∀ p, 0 ≤ pr p) : ∀ p, 0 ≤ sweep c d pr p := by
  intro p
  have h1 : (0:ℚ) ≤ (1 - d) / (c.length : ℚ) :=
    div_nonneg (by linarith) (Nat.cast_nonneg _)
  exact h1.trans (sweep_lower c d pr hd0 hpr p)

/-- C9: every rank iterate_pagerank returns is at least (1 - d) / N,
    hence strictly positive whenever the damping factor is below 1. -/
theorem iterate_pagerank_lower_bound (c : Corpus) (d : ℚ) (fuel : Nat)
    (r : List (Page × ℚ)) (hc : c ≠ []) (hd0 : 0 ≤ d) (hd1 : d ≤ 1)
    (hr : iterate_pagerank c d fuel = some r) :
    ∀ kv ∈ r, (1 - d) / (c.length : ℚ) ≤ kv.2 ∧ (d < 1 → 0 < kv.2) := by
  unfold iterate_pagerank at hr
  cases hiter : iterLoop c d fuel (initRank c) with
  | none => rw [hiter] at hr; cases hr
  | some f =>
      rw [hiter] at hr
      simp only [Option.map_some', Option.some.injEq] at hr
      have hpost : ∀ p, (1 - d) / (c.length : ℚ) ≤ f p := by
        refine iterLoop_some_post c d (fun pr => ∀ p, 0 ≤ pr p)
          (fun pr => ∀ p, (1 - d) / (c.length : ℚ) ≤ pr p)
          (fun pr hpr p => sweep_lower c d pr hd0 hpr p)
          (fun pr hpr => sweep_nonneg c d pr hd0 hd1 hpr)
          fuel (initRank c) f ?_ hiter
        intro p
        unfold initRank
        positivity
      intro kv hkv
      rw [← hr, mem_mkDict] at hkv
      obtain ⟨p, hp, rfl⟩ := hkv
      refine ⟨hpost p, fun hdlt => ?_⟩
      have hNpos : (0:ℚ) < (c.length : ℚ) := length_cast_pos hc
      have hbase : 0 < (1 - d) / (c.length : ℚ) :=
        div_pos (by linarith) hNpos
      exact lt_of_lt_of_le hbase (hpost p)

/-- Witness for C9: on the two page cycle with damping 0.85 both
    returned ranks are at least 3/40 and positive. -/
theorem iterate_pagerank_lower_bound_witness :
    (1 - 17/20) / ((cTwo.length : ℕ) : ℚ) ≤ 1/2 ∧ (0:ℚ) < 1/2 :=
  have h := iterate_pagerank_lower_bound cTwo (17/20) 1
    [((0:Page), (1:ℚ)/2), (1, 1/2)] (by decide) (by norm_num) (by norm_num)
    iterate_cTwo_eval ((0:Page), (1:ℚ)/2) (by simp)
  ⟨h.1, h.2 (by norm_num)⟩

/-- C10 (amended): the incoming link sum of a sweep skips the page being
    updated, so it coincides with the sum over all pages q with
    p among links q exactly when no page links to itself; on the
    violating corpus cSelf the self link of page 0 contributes nothing
    to the rank of page 0 (only pr 1 / 1 appears) while it still counts
    in the denominator of the contribution of page 0 to page 1
    (pr 0 / 2); consequently, on any well formed corpus with a self link
    and any positive damping factor, a sweep from the uniform initial
    ranks strictly loses total mass (with damping 0 the mass is
    trivially preserved). -/
theorem self_link_sum_exclusion :
    (∀ (c : Corpus) (d : ℚ) (pr : Page → ℚ) (p : Page), NoSelf c →
       sweep c d pr p = (1 - d) / (c.length : ℚ)
         + d * ((c.map fun kv =>
               if p ∈ kv.2 then pr kv.1 / (kv.2.length : ℚ) else 0).sum
             + (c.map fun kv =>
               if kv.2 = [] then pr kv.1 / (c.length : ℚ) else 0).sum)) ∧
    (∀ (d : ℚ) (pr : Page → ℚ),
       sweep cSelf d pr 0 = (1 - d) / 2 + d * (pr 1 / 1)) ∧
    (∀ (d : ℚ) (pr : Page → ℚ),
       sweep cSelf d pr 1 = (1 - d) / 2 + d * (pr 0 / 2)) ∧
    (∀ (c : Corpus) (d : ℚ), WF c → c ≠ [] →
       (∃ kv ∈ c, kv.1 ∈ kv.2) → 0 < d →
       sumKeys c (sweep c d (initRank c)) < 1) := by
  refine ⟨fun c d pr p hns => sweep_full_sum c d pr p hns, ?_, ?_, ?_⟩
  · intro d pr
    have hne : (([0, 1] : List Page) = []) = False := by simp
    have hne2 : (([0] : List Page) = []) = False := by simp
    simp only [sweep, sweepSum, cSelf, List.map_cons, List.map_nil,
      List.sum_cons, List.sum_nil, List.length_cons, List.length_nil,
      hne, hne2, if_false]
    norm_num
  · intro d pr
    have hne : (([0, 1] : List Page) = []) = False := by simp
    have hne2 : (([0] : List Page) = []) = False := by simp
    simp only [sweep, sweepSum, cSelf, List.map_cons, List.map_nil,
      List.sum_cons, List.sum_nil, List.length_cons, List.length_nil,
      hne, hne2, if_false]
    norm_num
  · intro c d hwf hc hbad hd
    obtain ⟨kv0, hkv0, hself⟩ := hbad
    rw [sumKeys_sweep c d _ hc]
    have hinitpos : ∀ q : Page, 0 < initRank c q := by
      intro q
      unfold initRank
      have := length_cast_pos hc
      positivity
    have hS : (c.map fun kv =>
        ((keys c).map fun p => coef c p kv).sum * initRank c kv.1).sum
        < (c.map fun kv => initRank c kv.1).sum := by
      apply List.sum_lt_sum
      · intro kv _
        calc ((keys c).map fun p => coef c p kv).sum * initRank c kv.1
            ≤ 1 * initRank c kv.1 :=
              mul_le_mul_of_nonneg_right (colsum_le_one c hwf.1 hc kv)
                (le_of_lt (hinitpos _))
          _ = initRank c kv.1 := one_mul _
      · refine ⟨kv0, hkv0, ?_⟩
        have hne : kv0.2 ≠ [] := by
          intro h
          rw [h] at hself
          cases hself
        have hlenpos : (0:ℚ) < (kv0.2.length : ℚ) := by
          exact_mod_cast List.length_pos.mpr hne
        have hcollt : ((keys c).map fun p => coef c p kv0).sum < 1 := by
          unfold coef
          rw [sum_map_add]
          have h2 : ((keys c).map fun p =>
              if kv0.2 = [] then 1 / (c.length : ℚ) else 0).sum = 0 := by
            have : ∀ p ∈ keys c,
                (if kv0.2 = [] then 1 / (c.length : ℚ) else 0) = 0 :=
              fun p _ => if_neg hne
            rw [List.map_congr_left this]
            simp
          rw [colsum_links_self c hwf.1 kv0.1 kv0.2 (hwf.2 kv0 hkv0).1
            (hwf.2 kv0 hkv0).2 hself, h2, add_zero, div_lt_one hlenpos]
          linarith
        calc ((keys c).map fun p => coef c p kv0).sum * initRank c kv0.1
            < 1 * initRank c kv0.1 :=
              mul_lt_mul_of_pos_right hcollt (hinitpos _)
          _ = initRank c kv0.1 := one_mul _
    have hsum1 : (c.map fun kv => initRank c kv.1).sum = 1 := by
      rw [← sumKeys_eq_map]
      exact sumKeys_init c hc
    rw [hsum1] at hS
    nlinarith

/-- C10 counterexample: with damping factor 0 a sweep on the self
    linking corpus cSelf does preserve the total rank mass, so the
    unconditional claim of mass loss fails at the explicit input
    damping 0. -/
theorem self_link_mass_preserved_at_zero :
    ((0:Page), [0, 1]) ∈ cSelf ∧ (0:Page) ∈ [0, 1] ∧
    sumKeys cSelf (initRank cSelf) = 1 ∧
    sumKeys cSelf (sweep cSelf 0 (initRank cSelf)) = 1 := by
  refine ⟨by decide, by decide, ?_, ?_⟩
  · norm_num [sumKeys, keys, cSelf, initRank]
  · norm_num [sumKeys, keys, cSelf, sweep, sweepSum, initRank]

/-- Witness for C10: the unguarded form holds at the self link free
    corpus cOsc, and mass is strictly lost on cSelf at damping 0.85. -/
theorem self_link_sum_exclusion_witness :
    (sweep cOsc (1/2) (initRank cOsc) 0
      = (1 - 1/2) / (cOsc.length : ℚ)
        + (1/2) * ((cOsc.map fun kv =>
              if 0 ∈ kv.2 then initRank cOsc kv.1 / (kv.2.length : ℚ) else 0).sum
            + (cOsc.map fun kv =>
              if kv.2 = [] then initRank cOsc kv.1 / (cOsc.length : ℚ) else 0).sum)) ∧
    sumKeys cSelf (sweep cSelf (17/20) (initRank cSelf)) < 1 :=
  ⟨self_link_sum_exclusion.1 cOsc (1/2) (initRank cOsc) 0 (by decide),
   self_link_sum_exclusion.2.2.2 cSelf (17/20) (by decide) (by decide)
     ⟨((0:Page), [0, 1]), by decide, by decide⟩ (by norm_num)⟩

/- ### Termination of the iteration: claim C5 -/

/-- The l1 distance of two rank functions over the corpus keys. -/
def l1dist (c : Corpus) (f g : Page → ℚ) : ℚ :=
  sumKeys c fun p => |f p - g p|

lemma l1dist_nonneg (c : Corpus) (f g : Page → ℚ) : 0 ≤ l1dist c f g := by
  apply List.sum_nonneg
  intro x hx
  simp only [List.mem_map] at hx
  obtain ⟨q, _, rfl⟩ := hx
  exact abs_nonneg _

lemma le_l1dist (c : Corpus) (f g : Page → ℚ) (p : Page)
    (hp : p ∈ keys c) : |f p - g p| ≤ l1dist c f g := by
  unfold l1dist sumKeys
  refine List.single_le_sum ?_ _ (List.mem_map_of_mem _ hp)
  intro x hx
  simp only [List.mem_map] at hx
  obtain ⟨q, _, rfl⟩ := hx
  exact abs_nonneg _

lemma sum_map_sub {α : Type} (l : List α) (f g : α → ℚ) :
    (l.map fun x => f x - g x).sum = (l.map f).sum - (l.map g).sum := by
  induction l with
  | nil => simp
  | cons a t ih => simp only [List.map_cons, List.sum_cons, ih]; ring

lemma sweep_sub (c : Corpus) (d : ℚ) (f g : Page → ℚ) (p : Page) :
    sweep c d f p - sweep c d g p
      = d * (c.map fun kv => coef c p kv * (f kv.1 - g kv.1)).sum := by
  unfold sweep
  rw [sweepSum_coef, sweepSum_coef]
  have hsub : (c.map fun kv => coef c p kv * (f kv.1 - g kv.1)).sum
      = (c.map fun kv => coef c p kv * f kv.1).sum
        - (c.map fun kv => coef c p kv * g kv.1).sum := by
    rw [← sum_map_sub]
    exact congrArg List.sum (List.map_congr_left fun kv _ => by ring)
  rw [hsub]
  ring

/-- The sweep contracts the l1 distance by the damping factor: the
    update matrix is column substochastic. -/
lemma sweep_lipschitz (c : Corpus) (d : ℚ) (f g : Page → ℚ)
    (hk : (keys c).Nodup) (hc : c ≠ []) (hd0 : 0 ≤ d) :
    l1dist c (sweep c d f) (sweep c d g) ≤ d * l1dist c f g := by
  have hper : ∀ p ∈ keys c, |sweep c d f p - sweep c d g p|
      ≤ d * (c.map fun kv => coef c p kv * |f kv.1 - g kv.1|).sum := by
    intro p _
    rw [sweep_sub, abs_mul, abs_of_nonneg hd0]
    apply mul_le_mul_of_nonneg_left _ hd0
    refine (abs_sum_le _ _).trans ?_
    apply List.sum_le_sum
    intro kv _
    rw [abs_mul, abs_of_nonneg (coef_nonneg c p kv)]
  calc l1dist c (sweep c d f) (sweep c d g)
      ≤ ((keys c).map fun p =>
          d * (c.map fun kv => coef c p kv * |f kv.1 - g kv.1|).sum).sum :=
        List.sum_le_sum hper
    _ = d * ((keys c).map fun p =>
          (c.map fun kv => coef c p kv * |f kv.1 - g kv.1|).sum).sum :=
        sum_map_mul_left _ _ _
    _ = d * (c.map fun kv =>
          ((keys c).map fun p => coef c p kv * |f kv.1 - g kv.1|).sum).sum := by
        rw [sum_sum_comm]
    _ = d * (c.map fun kv =>
          ((keys c).map fun p => coef c p kv).sum * |f kv.1 - g kv.1|).sum := by
        congr 1
        exact congrArg List.sum
          (List.map_congr_left fun kv _ => sum_map_mul_right _ _ _)
    _ ≤ d * (c.map fun kv => |f kv.1 - g kv.1|).sum := by
        apply mul_le_mul_of_nonneg_left _ hd0
        apply List.sum_le_sum
        intro kv _
        calc ((keys c).map fun p => coef c p kv).sum * |f kv.1 - g kv.1|
            ≤ 1 * |f kv.1 - g kv.1| :=
              mul_le_mul_of_nonneg_right (colsum_le_one c hk hc kv)
                (abs_nonneg _)
          _ = |f kv.1 - g kv.1| := one_mul _
    _ = d * l1dist c f g := by rw [l1dist, sumKeys_eq_map]

/-- Successive sweep distances decay geometrically. -/
lemma iter_decay (c : Corpus) (d : ℚ) (x0 : Page → ℚ)
    (hk : (keys c).Nodup) (hc : c ≠ []) (hd0 : 0 ≤ d) :
    ∀ k : ℕ, l1dist c ((sweep c d)^[k] x0) ((sweep c d)^[k+1] x0)
      ≤ d ^ k * l1dist c x0 (sweep c d x0) := by
  intro k
  induction k with
  | zero => simp [Function.iterate_one]
  | succ m ih =>
      rw [Function.iterate_succ_apply' (sweep c d) m x0,
        Function.iterate_succ_apply' (sweep c d) (m+1) x0]
      calc l1dist c (sweep c d ((sweep c d)^[m] x0))
            (sweep c d ((sweep c d)^[m+1] x0))
          ≤ d * l1dist c ((sweep c d)^[m] x0) ((sweep c d)^[m+1] x0) :=
            sweep_lipschitz c d _ _ hk hc hd0
        _ ≤ d * (d ^ m * l1dist c x0 (sweep c d x0)) :=
            mul_le_mul_of_nonneg_left ih hd0
        _ = d ^ (m+1) * l1dist c x0 (sweep c d x0) := by ring

/-- With damping below 1 some sweep index satisfies the stopping test. -/
lemma exists_converged (c : Corpus) (d : ℚ) (x0 : Page → ℚ)
    (hk : (keys c).Nodup) (hc : c ≠ []) (hd0 : 0 ≤ d) (hd1 : d < 1) :
    ∃ k : ℕ, stepOK c d ((sweep c d)^[k] x0) := by
  have htolpos : (0:ℚ) < tol := by norm_num [tol]
  have hD0 : 0 ≤ l1dist c x0 (sweep c d x0) := l1dist_nonneg c _ _
  obtain ⟨k, hk2⟩ : ∃ k : ℕ, d ^ k * l1dist c x0 (sweep c d x0) ≤ tol := by
    by_cases hDz : l1dist c x0 (sweep c d x0) = 0
    · exact ⟨0, by rw [hDz]; simpa using le_of_lt htolpos⟩
    · have hDpos : 0 < l1dist c x0 (sweep c d x0) :=
        lt_of_le_of_ne hD0 (Ne.symm hDz)
      obtain ⟨k, hk3⟩ := exists_pow_lt_of_lt_one
        (div_pos htolpos hDpos) hd1
      exact ⟨k, le_of_lt ((lt_div_iff₀ hDpos).mp hk3)⟩
  refine ⟨k, fun p hp => ?_⟩
  have h1 : |(sweep c d)^[k] x0 p - (sweep c d)^[k+1] x0 p|
      ≤ l1dist c ((sweep c d)^[k] x0) ((sweep c d)^[k+1] x0) :=
    le_l1dist c _ _ p hp
  have h2 := iter_decay c d x0 hk hc hd0 k
  rw [Function.iterate_succ_apply' (sweep c d) k x0] at h1 h2
  exact h1.trans (h2.trans hk2)

/-- Running the loop past the first converged sweep returns exactly the
    ranks of that sweep. -/
lemma iterLoop_reach (c : Corpus) (d : ℚ) :
    ∀ (m : ℕ) (pr : Page → ℚ),
      (∀ j < m, ¬ stepOK c d ((sweep c d)^[j] pr)) →
      stepOK c d ((sweep c d)^[m] pr) →
      ∀ fuel, m < fuel →
        iterLoop c d fuel pr = some ((sweep c d)^[m+1] pr) := by
  intro m
  induction m with
  | zero =>
      intro pr _ hok fuel hfuel
      obtain ⟨f2, rfl⟩ : ∃ f2, fuel = f2 + 1 := ⟨fuel - 1, by omega⟩
      rw [iterLoop, if_pos (by simpa using hok)]
      simp [Function.iterate_one]
  | succ m ih =>
      intro pr hneg hok fuel hfuel
      obtain ⟨f2, rfl⟩ : ∃ f2, fuel = f2 + 1 := ⟨fuel - 1, by omega⟩
      have h0 : ¬ stepOK c d pr := by simpa using hneg 0 (by omega)
      rw [iterLoop, if_neg h0]
      have hres := ih (sweep c d pr)
        (fun j hj => by
          simpa [Function.iterate_succ_apply] using hneg (j+1) (by omega))
        (by simpa [Function.iterate_succ_apply] using hok)
        f2 (by omega)
      rw [hres, ← Function.iterate_succ_apply]

/-- With no converged sweep inside the fuel budget the loop keeps
    running. -/
lemma iterLoop_stuck (c : Corpus) (d : ℚ) :
    ∀ (fuel : ℕ) (pr : Page → ℚ),
      (∀ j < fuel, ¬ stepOK c d ((sweep c d)^[j] pr)) →
      iterLoop c d fuel pr = none := by
  intro fuel
  induction fuel with
  | zero => intro pr _; rfl
  | succ m ih =>
      intro pr hneg
      have h0 : ¬ stepOK c d pr := by simpa using hneg 0 (by omega)
      rw [iterLoop, if_neg h0]
      apply ih
      intro j hj
      simpa [Function.iterate_succ_apply] using hneg (j+1) (by omega)

/-- C5 (amended): for every non empty corpus with distinct page keys and
    every damping factor in [0, 1), the while loop terminates, and it
    stops exactly after the first sweep whose ranks all moved by at most
    0.001 from their prior values: with fuel at most m the loop is still
    running, with more fuel it returns exactly the freshly computed
    ranks of sweep m + 1, which are adopted.  (At damping factor 1 the
    claim fails: see the counterexample on cOsc.) -/
theorem iterate_pagerank_terminates (c : Corpus) (d : ℚ)
    (hk : (keys c).Nodup) (hc : c ≠ []) (hd0 : 0 ≤ d) (hd1 : d < 1) :
    ∃ m : ℕ,
      stepOK c d ((sweep c d)^[m] (initRank c)) ∧
      (∀ j < m, ¬ stepOK c d ((sweep c d)^[j] (initRank c))) ∧
      (∀ fuel, fuel ≤ m → iterate_pagerank c d fuel = none) ∧
      (∀ fuel, m < fuel → iterate_pagerank c d fuel
        = some (mkDict (keys c) ((sweep c d)^[m+1] (initRank c)))) := by
  have hex : ∃ k, stepOK c d ((sweep c d)^[k] (initRank c)) :=
    exists_converged c d (initRank c) hk hc hd0 hd1
  refine ⟨Nat.find hex, Nat.find_spec hex,
    fun j hj => Nat.find_min hex hj, ?_, ?_⟩
  · intro fuel hfuel
    unfold iterate_pagerank
    rw [iterLoop_stuck c d fuel (initRank c)
      (fun j hj => Nat.find_min hex (by omega))]
    rfl
  · intro fuel hfuel
    unfold iterate_pagerank
    rw [iterLoop_reach c d (Nat.find hex) (initRank c)
      (fun j hj => Nat.find_min hex hj) (Nat.find_spec hex) fuel hfuel]
    rfl

/-- Witness for C5 on the two page cycle with damping 0.85. -/
theorem iterate_pagerank_terminates_witness :
    ∃ m : ℕ,
      stepOK cTwo (17/20) ((sweep cTwo (17/20))^[m] (initRank cTwo)) ∧
      (∀ j < m, ¬ stepOK cTwo (17/20)
        ((sweep cTwo (17/20))^[j] (initRank cTwo))) ∧
      (∀ fuel, fuel ≤ m → iterate_pagerank cTwo (17/20) fuel = none) ∧
      (∀ fuel, m < fuel → iterate_pagerank cTwo (17/20) fuel
        = some (mkDict (keys cTwo)
            ((sweep cTwo (17/20))^[m+1] (initRank cTwo)))) :=
  iterate_pagerank_terminates cTwo (17/20) (by decide) (by decide)
    (by norm_num) (by norm_num)

/-- The two oscillation states of cOsc under damping factor 1. -/
def oscA : Page → ℚ := fun p => if p = 0 then 2/3 else if p = 1 then 1/3 else 0

def oscB : Page → ℚ := fun p => if p = 0 then 1/3 else if p = 1 then 2/3 else 0

/-- Closed form of one sweep on cOsc with damping factor 1. -/
lemma sweep_cOsc_eval (pr : Page → ℚ) :
    sweep cOsc 1 pr
      = fun p => if p = 0 then pr 1 + pr 2 else if p = 1 then pr 0 else 0 := by
  funext p
  have hne : (([1] : List Page) = []) = False := by simp
  have hne2 : (([0] : List Page) = []) = False := by simp
  simp only [sweep, sweepSum, cOsc, List.map_cons, List.map_nil,
    List.sum_cons, List.sum_nil, List.length_cons, List.length_nil,
    hne, hne2, if_false, List.mem_cons, List.not_mem_nil, or_false]
  by_cases h0 : p = 0
  · subst h0; norm_num
  · by_cases h1 : p = 1
    · subst h1; norm_num
    · by_cases h2 : p = 2
      · subst h2; norm_num
      · simp [h0, h1, h2]

lemma sweep_cOsc_init : sweep cOsc 1 (initRank cOsc) = oscA := by
  rw [sweep_cOsc_eval]
  funext p
  norm_num [initRank, cOsc, oscA]

lemma sweep_cOsc_A : sweep cOsc 1 oscA = oscB := by
  rw [sweep_cOsc_eval]
  funext p
  norm_num [oscA, oscB]

lemma sweep_cOsc_B : sweep cOsc 1 oscB = oscA := by
  rw [sweep_cOsc_eval]
  funext p
  norm_num [oscA, oscB]

lemma not_stepOK_cOsc_init : ¬ stepOK cOsc 1 (initRank cOsc) := by
  intro h
  have h0 := h 0 (by simp [keys, cOsc])
  rw [sweep_cOsc_init] at h0
  norm_num [initRank, cOsc, oscA, tol, abs_le] at h0

lemma not_stepOK_cOsc_A : ¬ stepOK cOsc 1 oscA := by
  intro h
  have h0 := h 0 (by simp [keys, cOsc])
  rw [sweep_cOsc_A] at h0
  norm_num [oscA, oscB, tol, abs_le] at h0

lemma not_stepOK_cOsc_B : ¬ stepOK cOsc 1 oscB := by
  intro h
  have h0 := h 0 (by simp [keys, cOsc])
  rw [sweep_cOsc_B] at h0
  norm_num [oscA, oscB, tol, abs_le] at h0

lemma iterLoop_cOsc_none : ∀ fuel : ℕ,
    iterLoop cOsc 1 fuel oscA = none ∧ iterLoop cOsc 1 fuel oscB = none := by
  intro fuel
  induction fuel with
  | zero => exact ⟨rfl, rfl⟩
  | succ m ih =>
      constructor
      · rw [iterLoop, if_neg not_stepOK_cOsc_A, sweep_cOsc_A]
        exact ih.2
      · rw [iterLoop, if_neg not_stepOK_cOsc_B, sweep_cOsc_B]
        exact ih.1

/-- C5 counterexample: on the non empty corpus cOsc with damping factor
    1 (inside the claimed interval [0, 1]) the loop oscillates between
    two states forever and never returns, whatever the fuel. -/
theorem iterate_pagerank_diverges_at_one :
    ¬ ∃ (fuel : ℕ) (r : List (Page × ℚ)),
        iterate_pagerank cOsc 1 fuel = some r := by
  rintro ⟨fuel, r, hr⟩
  unfold iterate_pagerank at hr
  have hnone : iterLoop cOsc 1 fuel (initRank cOsc) = none := by
    cases fuel with
    | zero => rfl
    | succ m =>
        rw [iterLoop, if_neg not_stepOK_cOsc_init, sweep_cOsc_init]
        exact (iterLoop_cOsc_none m).1
  rw [hnone] at hr
  cases hr

end PageRankPy
